import Mathlib

/-!
Verification of the CaptionCam transcript engine (`SpeechLog`) and the
recognizer lifecycle adapter (`SpeechRecognizer`) from `app.js`.

The JavaScript classes are shallowly embedded: each method becomes a pure
Lean function on an explicit state record.  JavaScript values that can be
`null`/`undefined` are modelled by the small `JsVal` type; property access
on `undefined` (a TypeError at runtime) is modelled by an error flag or an
`Except` result, with all state mutations performed before the throw kept
in the returned state, exactly as a thrown exception leaves a JS object.
-/

/-- Model of a JavaScript value in transcript position: `undefined`, `null`
or a string.  (The recognizer API only ever supplies strings, but the
ledger code guards against the other two.) -/
inductive JsVal where
  | undef : JsVal
  | null : JsVal
  | str : String → JsVal
deriving DecidableEq, Repr

/-- The JavaScript `ToString` coercion applied by `String.prototype.startsWith`
to its argument and by string `+=` concatenation. -/
def JsVal.jsToString : JsVal → String
  | .undef => "undefined"
  | .null => "null"
  | .str s => s

/-- JS `s.startsWith(p)`: `p` is an initial substring of `s`
(compared on the character sequence). -/
def jsStartsWith (s p : String) : Bool :=
  p.data.isPrefixOf s.data

/-- JS `s.endsWith(p)`: `p` is a terminal substring of `s`. -/
def jsEndsWith (s p : String) : Bool :=
  p.data.isSuffixOf s.data

/-- JS array indexing `a[ix]` with a possibly out-of-range or negative
index: yields `undefined` (here `none`) outside the bounds. -/
def jsIndex (l : List α) (ix : Int) : Option α :=
  if h : 0 ≤ ix ∧ ix.toNat < l.length then some (l.get ⟨ix.toNat, h.2⟩) else none

/-- One `SpeechRecognitionAlternative`: carries a `transcript` property. -/
structure SpeechAlternative where
  transcript : JsVal
deriving DecidableEq, Repr

/-- One `SpeechRecognitionResult`: the `isFinal` flag plus the list of
alternatives; `result[0]` in the source is the head of `alternatives`. -/
structure SpeechResult where
  isFinal : Bool
  alternatives : List SpeechAlternative
deriving DecidableEq, Repr

/-- JS `result[0]`: `undefined` when there are no alternatives. -/
def SpeechResult.top (r : SpeechResult) : Option SpeechAlternative :=
  r.alternatives.head?

/-- The transcript of the first alternative, `JsVal.undef` when the result
has no alternatives (used only to state theorems about well-formed data). -/
def SpeechResult.topTranscript (r : SpeechResult) : JsVal :=
  match r.alternatives.head? with
  | some a => a.transcript
  | none => JsVal.undef

/-- A `SpeechRecognitionEvent` as consumed by `SpeechLog.update`:
`resultIndex` plus the `results` snapshot. -/
structure SpeechEvent where
  resultIndex : Int
  results : List SpeechResult
deriving DecidableEq, Repr

/-- The `SpeechLog` state: character budget, finalized history (`wholeLog`),
the bounded current window (`currentResults`), pending interim results and
the highest finalized index (`indexFinished`, initially `-1`). -/
structure SpeechLog where
  maxCharacters : Nat
  wholeLog : List SpeechResult
  currentResults : List SpeechResult
  interimResults : List SpeechResult
  indexFinished : Int
deriving DecidableEq, Repr

/-- The `SpeechLog` constructor: `maxCharacters = 300`, empty sequences,
`indexFinished = -1`. -/
def SpeechLog.new : SpeechLog :=
  { maxCharacters := 300, wholeLog := [], currentResults := [],
    interimResults := [], indexFinished := -1 }

/-- `SpeechLog.init`: fold the current window into the history (the source
pushes only when the window is non-empty), clear the window and interim
results, reset `indexFinished` to `-1`. -/
def SpeechLog.init (L : SpeechLog) : SpeechLog :=
  let w := if L.currentResults.length > 0 then L.wholeLog ++ L.currentResults
           else L.wholeLog
  { L with wholeLog := w, currentResults := [], interimResults := [],
           indexFinished := -1 }

/-- `SpeechLog.getLastItem`: the last element of an array, `null` when empty. -/
def SpeechLog.getLastItem (array : List α) : Option α :=
  if array.length < 1 then none else array.getLast?

/-- One iteration of the `_extractUpdate` loop at index `ix`.  Returns the
updated `indexFinished`, the items collected so far, and whether a
TypeError was thrown in this iteration (`results[ix]` or `results[ix][0]`
being `undefined`).  Note the `isFinal` bookkeeping on line 124 of the
source happens before the `[0].transcript` access on line 127, so the
`indexFinished` update survives the throw. -/
def extractStep (ev : SpeechEvent) (ix : Int) (fin : Int)
    (items : List SpeechResult) : Int × List SpeechResult × Bool :=
  match jsIndex ev.results ix with
  | none => (fin, items, true)
  | some r =>
    let fin2 := if r.isFinal = true then max ix fin else fin
    match r.top with
    | none => (fin2, items, true)
    | some a =>
      match a.transcript with
      | .str t =>
        if t.length > 0 then (fin2, items ++ [r], false)
        else (fin2, items, false)
      | _ => (fin2, items, false)

/-- The `for` loop of `_extractUpdate`, running `fuel` iterations starting
at index `ix` (the caller passes exactly `results.length - ix` clamped at
zero, so the fuel runs out precisely when `ix` passes the end).  Stops
early when an iteration throws. -/
def extractLoop (ev : SpeechEvent) : Nat → Int → Int → List SpeechResult →
    Int × List SpeechResult × Bool
  | 0, _, fin, items => (fin, items, false)
  | Nat.succ k, ix, fin, items =>
    match extractStep ev ix fin items with
    | (fin2, items2, true) => (fin2, items2, true)
    | (fin2, items2, false) => extractLoop ev k (ix + 1) fin2 items2

/-- `SpeechLog._extractUpdate`: scan `results` from
`max(indexFinished, resultIndex)`, tracking the new `indexFinished` and
collecting results whose top transcript is a non-empty string.  The third
component records a thrown TypeError. -/
def SpeechLog.extractUpdate (L : SpeechLog) (ev : SpeechEvent) :
    Int × List SpeechResult × Bool :=
  let ixBegin := max L.indexFinished ev.resultIndex
  extractLoop ev ((ev.results.length - ixBegin).toNat) ixBegin L.indexFinished []

/-- `SpeechLog._pushUpdate`: apply one collected result.  A final result is
appended to `currentResults`, except that when the last entry's transcript
is a prefix of the new transcript the last entry is popped first.  A
non-final result is appended to `interimResults`.  The Bool records a
thrown TypeError (`result[0]` or `last[0]` or a non-string transcript);
per JS evaluation order `last != null` is checked before `result[0]` is
touched, and the `startsWith` argument is `ToString`-coerced. -/
def SpeechLog.pushUpdate (L : SpeechLog) (r : SpeechResult) :
    SpeechLog × Bool :=
  if r.isFinal then
    match SpeechLog.getLastItem L.currentResults with
    | none => ({ L with currentResults := L.currentResults ++ [r] }, false)
    | some last =>
      match r.top with
      | none => (L, true)
      | some a =>
        match a.transcript with
        | .str t =>
          match last.top with
          | none => (L, true)
          | some la =>
            if jsStartsWith t la.transcript.jsToString then
              ({ L with currentResults := L.currentResults.dropLast ++ [r] },
               false)
            else
              ({ L with currentResults := L.currentResults ++ [r] }, false)
        | _ => (L, true)
  else
    ({ L with interimResults := L.interimResults ++ [r] }, false)

/-- The `results.forEach(r => this._pushUpdate(r))` loop; a throw inside an
iteration aborts the loop, keeping the pushes already performed. -/
def SpeechLog.pushAll (L : SpeechLog) : List SpeechResult → SpeechLog × Bool
  | [] => (L, false)
  | r :: rest =>
    match L.pushUpdate r with
    | (L2, true) => (L2, true)
    | (L2, false) => L2.pushAll rest

/-- `SpeechLog.update`: the warning when `indexFinished >= resultIndex` only
logs (no state effect), then `_extractUpdate` runs (its `indexFinished`
effect applies even on an empty collection or a throw), then either the
early `false` return, or: clear `interimResults` and push every collected
item.  `Except.error` marks a propagated TypeError; the returned state
keeps every mutation made before the throw. -/
def SpeechLog.update (L : SpeechLog) (ev : SpeechEvent) :
    SpeechLog × Except String Bool :=
  match L.extractUpdate ev with
  | (fin, _, true) => ({ L with indexFinished := fin }, .error "TypeError")
  | (fin, items, false) =>
    if items.length < 1 then ({ L with indexFinished := fin }, .ok false)
    else
      let L1 : SpeechLog := { L with indexFinished := fin, interimResults := [] }
      match L1.pushAll items with
      | (L2, true) => (L2, .error "TypeError")
      | (L2, false) => (L2, .ok true)

/-- The backward walk of `_trimCurrentResults`, expressed on the reversed
window (newest entry first): keep entries while the running character sum
stays within the budget; at the first entry that pushes the sum beyond it,
drop that entry and everything older.  A TypeError (`[0]` missing or a
non-string transcript under `.length`) is reported as `Except.error`. -/
def trimGo (maxChars : Nat) : Nat → List SpeechResult →
    Except String (List SpeechResult)
  | _, [] => .ok []
  | sum, r :: rest =>
    match r.top with
    | none => .error "TypeError"
    | some a =>
      match a.transcript with
      | .str t =>
        if sum + t.length > maxChars then .ok []
        else
          match trimGo maxChars (sum + t.length) rest with
          | .ok keep => .ok (r :: keep)
          | .error e => .error e
      | _ => .error "TypeError"

/-- `SpeechLog._trimCurrentResults`: drop the oldest entries of
`currentResults` so that the total transcript length fits in
`maxCharacters`.  (In the source this method is defined but never
invoked.)  The Bool records a thrown TypeError, in which case no shift has
happened yet. -/
def SpeechLog.trimCurrentResults (L : SpeechLog) : SpeechLog × Bool :=
  match trimGo L.maxCharacters 0 L.currentResults.reverse with
  | .ok kept => ({ L with currentResults := kept.reverse }, false)
  | .error _ => (L, true)

/-- `SpeechLog._addPunctuationIfNotExists`: empty string for a non-string
or empty input; otherwise append `。` unless the text already ends in one
of the eight terminal punctuation marks. -/
def SpeechLog.addPunctuationIfNotExists (text : JsVal) : String :=
  match text with
  | .str s =>
    if s.length < 1 then ""
    else if jsEndsWith s "。" || jsEndsWith s "、"
        || jsEndsWith s "？" || jsEndsWith s "！"
        || jsEndsWith s "." || jsEndsWith s ","
        || jsEndsWith s "?" || jsEndsWith s "!" then s
    else s ++ "。"
  | _ => ""

/-- The `currentResults` loop of `getCurrentSpeech`: punctuation-normalize
each entry's top transcript and concatenate; `r[0]` being `undefined`
throws. -/
def currentSpeechFinalGo : List SpeechResult → String → Except String String
  | [], acc => .ok acc
  | r :: rest, acc =>
    match r.top with
    | none => .error "TypeError"
    | some a =>
      currentSpeechFinalGo rest (acc ++ SpeechLog.addPunctuationIfNotExists a.transcript)

/-- The `interimResults` loop of `getCurrentSpeech`: raw `+=` concatenation
of each entry's top transcript (JS string coercion). -/
def currentSpeechInterimGo : List SpeechResult → String → Except String String
  | [], acc => .ok acc
  | r :: rest, acc =>
    match r.top with
    | none => .error "TypeError"
    | some a => currentSpeechInterimGo rest (acc ++ a.transcript.jsToString)

/-- `SpeechLog.getCurrentSpeech`: the live caption — normalized
`currentResults` transcripts followed by raw `interimResults` transcripts.
The method mutates nothing, so the returned state is the input state. -/
def SpeechLog.getCurrentSpeech (L : SpeechLog) :
    SpeechLog × Except String String :=
  (L, match currentSpeechFinalGo L.currentResults "" with
      | .error e => .error e
      | .ok acc => currentSpeechInterimGo L.interimResults acc)

/-- One of the three loops of `getWholeLog`: push
`_addPunctuationIfNotExists(r[0].transcript) + newline` per entry. -/
def wholeLogGo : List SpeechResult → List String → Except String (List String)
  | [], acc => .ok acc
  | r :: rest, acc =>
    match r.top with
    | none => .error "TypeError"
    | some a =>
      wholeLogGo rest (acc ++ [SpeechLog.addPunctuationIfNotExists a.transcript ++ "\n"])

/-- `SpeechLog.getWholeLog`: one normalized line per entry of `wholeLog`,
then `currentResults`, then `interimResults`, in that order.  The method
mutates nothing, so the returned state is the input state. -/
def SpeechLog.getWholeLog (L : SpeechLog) :
    SpeechLog × Except String (List String) :=
  (L, match wholeLogGo L.wholeLog [] with
      | .error e => .error e
      | .ok a =>
        match wholeLogGo L.currentResults a with
        | .error e => .error e
        | .ok b => wholeLogGo L.interimResults b)

/-- A ledger operation for stating trace properties: an `update` with some
event, or an `init`. -/
inductive LedgerOp where
  | update : SpeechEvent → LedgerOp
  | init : LedgerOp
deriving DecidableEq, Repr

/-- Run a sequence of ledger operations from a state (the post-state of an
`update` is kept even when the call threw, as in JS). -/
def runOps : List LedgerOp → SpeechLog → SpeechLog
  | [], L => L
  | .update ev :: rest, L => runOps rest (L.update ev).1
  | .init :: rest, L => runOps rest L.init

/-- Run a sequence of `update` calls (no intervening `init`). -/
def runUpdates : List SpeechEvent → SpeechLog → SpeechLog
  | [], L => L
  | ev :: rest, L => runUpdates rest (L.update ev).1

/-- A collected result is well-formed: its first alternative exists and its
transcript is a non-empty string. -/
def GoodResult (r : SpeechResult) : Prop :=
  ∃ a t, r.top = some a ∧ a.transcript = JsVal.str t ∧ t.length > 0

instance : DecidablePred GoodResult := fun r =>
  match h : r.top with
  | none => .isFalse (by rintro ⟨a, t, ha, _⟩; rw [h] at ha; exact Option.noConfusion ha)
  | some a =>
    match ht : a.transcript with
    | .str t =>
      if hl : t.length > 0 then
        .isTrue ⟨a, t, h, ht, hl⟩
      else
        .isFalse (by
          rintro ⟨b, u, hb, hu, hlu⟩
          rw [h] at hb
          cases hb
          rw [ht] at hu
          cases hu
          exact hl hlu)
    | .undef => .isFalse (by
        rintro ⟨b, u, hb, hu, _⟩
        rw [h] at hb
        cases hb
        rw [ht] at hu
        exact JsVal.noConfusion hu)
    | .null => .isFalse (by
        rintro ⟨b, u, hb, hu, _⟩
        rw [h] at hb
        cases hb
        rw [ht] at hu
        exact JsVal.noConfusion hu)

/-- Every result in the list has at least one alternative (so `r[0]` access
cannot throw). -/
def HasTops (rs : List SpeechResult) : Prop :=
  ∀ r ∈ rs, r.alternatives ≠ []

instance : DecidablePred HasTops := fun rs =>
  inferInstanceAs (Decidable (∀ r ∈ rs, r.alternatives ≠ []))

/-- The length of a result's top transcript as `_trimCurrentResults` counts
it (zero for a missing or non-string transcript, which would in fact
throw there). -/
def transcriptLength (r : SpeechResult) : Nat :=
  match r.topTranscript with
  | .str s => s.length
  | _ => 0

/-- The `recognizer` field of `SpeechRecognizer`: `undefined` before
`init()`, `null` when the platform has no implementation, or the engine
object. -/
inductive RecognizerRef where
  | undef : RecognizerRef
  | nullRef : RecognizerRef
  | engine : RecognizerRef
deriving DecidableEq, Repr

/-- The `SpeechRecognizer` adapter state: the recognizer reference, the
`isSpeechAvailable` flag (set by `onspeechstart`), the `available` flag
(the session-viability judgement), and the owned `SpeechLog`. -/
structure SpeechRecognizer where
  recognizer : RecognizerRef
  isSpeechAvailable : Bool
  available : Bool
  speechLog : SpeechLog
deriving DecidableEq, Repr

/-- The `SpeechRecognizer` constructor state: `recognizer` undefined,
`isSpeechAvailable = false`, `available = true`. -/
def SpeechRecognizer.mk0 (log : SpeechLog) : SpeechRecognizer :=
  { recognizer := .undef, isSpeechAvailable := false, available := true,
    speechLog := log }

/-- `SpeechRecognizer.init`: a second call is a no-op returning `available`;
otherwise create the engine when the platform has an implementation
(`hasImpl` abstracts the `SpeechRecognition`/`webkitSpeechRecognition`
checks on `window`, which set the same fields) or record `null` and
`available = false`.  Returns (state, returned Bool, number of
`onCritical` invocations — the source only calls `onLog` here). -/
def SpeechRecognizer.init (S : SpeechRecognizer) (hasImpl : Bool) :
    SpeechRecognizer × Bool × Nat :=
  if S.recognizer ≠ RecognizerRef.undef then (S, S.available, 0)
  else if hasImpl then
    ({ S with recognizer := .engine, available := true }, true, 0)
  else
    ({ S with recognizer := .nullRef, available := false }, false, 0)

/-- `SpeechRecognizer.start`: `false` without touching the engine when not
available or the recognizer is `null`/`undefined` (JS `== null`); else
checkpoint the ledger and start the engine.  Returns (state, returned
Bool, number of engine `start()` invocations). -/
def SpeechRecognizer.start (S : SpeechRecognizer) :
    SpeechRecognizer × Bool × Nat :=
  if S.available ≠ true ∨ S.recognizer = RecognizerRef.undef
      ∨ S.recognizer = RecognizerRef.nullRef then
    (S, false, 0)
  else
    ({ S with speechLog := S.speechLog.init }, true, 1)

/-- The lifecycle signals the engine can deliver to the handlers that
`init()` registers. -/
inductive AdapterEvent where
  | onstart : AdapterEvent
  | onaudiostart : AdapterEvent
  | onsoundstart : AdapterEvent
  | onspeechstart : AdapterEvent
  | onspeechend : AdapterEvent
  | onsoundend : AdapterEvent
  | onaudioend : AdapterEvent
  | onend : AdapterEvent
  | onerror : String → AdapterEvent
  | onnomatch : AdapterEvent
  | onresult : SpeechEvent → AdapterEvent
deriving DecidableEq, Repr

/-- Observable callbacks of one handler invocation: how many times
`onCritical` fired and how many times the engine's `start()` was invoked. -/
structure HandlerOut where
  criticals : Nat
  engineStarts : Nat
deriving DecidableEq, Repr

/-- Dispatch one engine event to the handlers registered by `init()`.
When no engine was created the handlers were never registered, so nothing
happens.  `onspeechstart` sets `isSpeechAvailable`; `onend` checkpoints
the ledger and restarts iff still `available`; `onerror` disables and
fires `onCritical` exactly when no speech was processed yet and the code
is neither `no-speech` nor `aborted`; the start/sound/audio markers and
`onnomatch` only log; `onresult` drives the ledger (and `onUpdated`,
which we do not track). -/
def SpeechRecognizer.handle (S : SpeechRecognizer) (e : AdapterEvent) :
    SpeechRecognizer × HandlerOut :=
  if S.recognizer ≠ RecognizerRef.engine then (S, ⟨0, 0⟩)
  else
    match e with
    | .onspeechstart => ({ S with isSpeechAvailable := true }, ⟨0, 0⟩)
    | .onend =>
      let S1 := { S with speechLog := S.speechLog.init }
      if S1.available then
        match S1.start with
        | (S2, _, n) => (S2, ⟨0, n⟩)
      else (S1, ⟨0, 0⟩)
    | .onerror code =>
      if S.isSpeechAvailable ≠ true ∧ code ≠ "no-speech" ∧ code ≠ "aborted" then
        ({ S with available := false }, ⟨1, 0⟩)
      else (S, ⟨0, 0⟩)
    | .onresult ev =>
      match S.speechLog.update ev with
      | (log2, _) => ({ S with speechLog := log2 }, ⟨0, 0⟩)
    | _ => (S, ⟨0, 0⟩)

/-- Deliver a sequence of engine events, accumulating the observable
callback counts. -/
def SpeechRecognizer.run (S : SpeechRecognizer) :
    List AdapterEvent → SpeechRecognizer × HandlerOut
  | [] => (S, ⟨0, 0⟩)
  | e :: es =>
    ((((S.handle e).1).run es).1,
     ⟨(S.handle e).2.criticals + (((S.handle e).1).run es).2.criticals,
      (S.handle e).2.engineStarts + (((S.handle e).1).run es).2.engineStarts⟩)

/-- Shorthand for the final result entries used in the concrete scenarios
below. -/
def finalRes (t : String) : SpeechResult :=
  { isFinal := true, alternatives := [{ transcript := JsVal.str t }] }

/-- Shorthand for an interim result entry with the given transcript. -/
def interimRes (t : String) : SpeechResult :=
  { isFinal := false, alternatives := [{ transcript := JsVal.str t }] }

/-- All stored entries of the ledger are well-formed. -/
def GoodLog (L : SpeechLog) : Prop :=
  (∀ x ∈ L.wholeLog, GoodResult x) ∧ (∀ x ∈ L.currentResults, GoodResult x) ∧
  (∀ x ∈ L.interimResults, GoodResult x)

/-- A fresh ledger configured with the ten-character budget of the trimming
scenario in the specification. -/
def ledgerMax10 : SpeechLog := { SpeechLog.new with maxCharacters := 10 }

/-- First trimming-scenario event: one final five-character result. -/
def trimEvent1 : SpeechEvent := ⟨0, [finalRes "abcde"]⟩

/-- Second trimming-scenario event: the snapshot grown by one final result. -/
def trimEvent2 : SpeechEvent := ⟨1, [finalRes "abcde", finalRes "fghij"]⟩

/-- Third trimming-scenario event: the snapshot grown by one more final
result. -/
def trimEvent3 : SpeechEvent := ⟨2, [finalRes "abcde", finalRes "fghij", finalRes "klmno"]⟩

/-- The ledger after the three trimming-scenario updates. -/
def ledgerAfterThree : SpeechLog :=
  (((ledgerMax10.update trimEvent1).1.update trimEvent2).1.update trimEvent3).1

/-- An event whose only result is final with an empty transcript (the
Android Chrome spurious-finalization shape). -/
def emptyFinalEvent : SpeechEvent := ⟨0, [finalRes ""]⟩

/-- An event with no results at all. -/
def emptyEvent : SpeechEvent := ⟨0, ([] : List SpeechResult)⟩

/-- A malformed event whose result has no alternatives, so `result[0]` is
`undefined`. -/
def noAltEvent : SpeechEvent := ⟨0, [{ isFinal := false, alternatives := [] }]⟩

/-- A well-formed one-result event. -/
def helloEvent : SpeechEvent := ⟨0, [finalRes "hello"]⟩

/-- The round-trip-export ledger of the specification: history `A`, window
`B`, interim `C`. -/
def ledgerABC : SpeechLog :=
  { maxCharacters := 300, wholeLog := [finalRes "A"],
    currentResults := [finalRes "B"], interimResults := [interimRes "C"],
    indexFinished := -1 }

/-- A ledger whose window ends in the dedup-scenario transcript. -/
def dedupLedger : SpeechLog :=
  { SpeechLog.new with currentResults := [finalRes "こんにち"] }

/-- The longer resend of the same utterance in the dedup scenario. -/
def dedupResult : SpeechResult := finalRes "こんにちは"

/-- An adapter state right after a successful `init()`: engine present, no
speech processed yet, available. -/
def engineAdapter : SpeechRecognizer :=
  { recognizer := RecognizerRef.engine, isSpeechAvailable := false,
    available := true, speechLog := SpeechLog.new }

/-- The one-step extraction never lowers the finalized-index accumulator. -/
theorem extractStep_fin_le (ev : SpeechEvent) (ix fin : Int)
    (items : List SpeechResult) : fin ≤ (extractStep ev ix fin items).1 := by
  unfold extractStep
  repeat' split
  all_goals simp [le_max_right]

/-- The loop of `_extractUpdate` never lowers the finalized-index
accumulator. -/
theorem extractLoop_fin_le (ev : SpeechEvent) :
    ∀ (k : Nat) (ix fin : Int) (items : List SpeechResult),
      fin ≤ (extractLoop ev k ix fin items).1 := by
  intro k
  induction k with
  | zero => intro ix fin items; exact le_refl fin
  | succ k ih =>
    intro ix fin items
    have h1 := extractStep_fin_le ev ix fin items
    unfold extractLoop
    rcases h : extractStep ev ix fin items with ⟨fin2, items2, err⟩
    rw [h] at h1
    cases err with
    | true => simpa using h1
    | false => simpa using le_trans h1 (ih (ix + 1) fin2 items2)

/-- `_extractUpdate` never lowers `indexFinished`. -/
theorem extractUpdate_fin_le (L : SpeechLog) (ev : SpeechEvent) :
    L.indexFinished ≤ (L.extractUpdate ev).1 :=
  extractLoop_fin_le ev _ _ _ _

/-- `_pushUpdate` touches only `currentResults` and `interimResults`. -/
theorem pushUpdate_frame (L : SpeechLog) (r : SpeechResult) :
    (L.pushUpdate r).1.wholeLog = L.wholeLog ∧
    (L.pushUpdate r).1.indexFinished = L.indexFinished ∧
    (L.pushUpdate r).1.maxCharacters = L.maxCharacters := by
  unfold SpeechLog.pushUpdate
  repeat' split
  all_goals simp

/-- The `forEach` push loop touches only `currentResults` and
`interimResults`. -/
theorem pushAll_frame (rs : List SpeechResult) : ∀ (L : SpeechLog),
    (L.pushAll rs).1.wholeLog = L.wholeLog ∧
    (L.pushAll rs).1.indexFinished = L.indexFinished ∧
    (L.pushAll rs).1.maxCharacters = L.maxCharacters := by
  induction rs with
  | nil => intro L; exact ⟨rfl, rfl, rfl⟩
  | cons r rest ih =>
    intro L
    have hp := pushUpdate_frame L r
    unfold SpeechLog.pushAll
    rcases h : L.pushUpdate r with ⟨L2, err⟩
    rw [h] at hp
    cases err with
    | true => simpa using hp
    | false =>
      have h2 := ih L2
      simp only
      exact ⟨h2.1.trans hp.1, h2.2.1.trans hp.2.1, h2.2.2.trans hp.2.2⟩

/-- `update` never modifies `wholeLog` or `maxCharacters` (on any input,
including throwing ones). -/
theorem update_wholeLog (L : SpeechLog) (ev : SpeechEvent) :
    (L.update ev).1.wholeLog = L.wholeLog ∧
    (L.update ev).1.maxCharacters = L.maxCharacters := by
  unfold SpeechLog.update
  rcases h : L.extractUpdate ev with ⟨fin, items, err⟩
  cases err with
  | true => simp
  | false =>
    by_cases hlen : items.length < 1
    · simp [hlen]
    · have hp := pushAll_frame items
        ({ L with indexFinished := fin, interimResults := [] } : SpeechLog)
      simp only [hlen, if_false]
      rcases hq : SpeechLog.pushAll _ items with ⟨L2, perr⟩
      rw [hq] at hp
      cases perr with
      | true => simpa using ⟨hp.1, hp.2.2⟩
      | false => simpa using ⟨hp.1, hp.2.2⟩

/-- `update` never lowers `indexFinished` (on any input). -/
theorem update_fin_le (L : SpeechLog) (ev : SpeechEvent) :
    L.indexFinished ≤ (L.update ev).1.indexFinished := by
  have he := extractUpdate_fin_le L ev
  unfold SpeechLog.update
  rcases h : L.extractUpdate ev with ⟨fin, items, err⟩
  rw [h] at he
  cases err with
  | true => simpa using he
  | false =>
    by_cases hlen : items.length < 1
    · simpa [hlen] using he
    · have hp := (pushAll_frame items
        ({ L with indexFinished := fin, interimResults := [] } : SpeechLog)).2.1
      simp only [hlen, if_false]
      rcases hq : SpeechLog.pushAll _ items with ⟨L2, perr⟩
      rw [hq] at hp
      cases perr with
      | true => simp only; simpa using hp ▸ he
      | false => simp only; simpa using hp ▸ he

/-- `init` appends exactly the current window to the history (also when the
window is empty, since appending nothing is the identity). -/
theorem init_wholeLog (L : SpeechLog) :
    (L.init).wholeLog = L.wholeLog ++ L.currentResults := by
  unfold SpeechLog.init
  by_cases h : L.currentResults.length > 0
  · simp [h]
  · have : L.currentResults = [] := by
      cases hc : L.currentResults with
      | nil => rfl
      | cons a l => rw [hc] at h; simp at h
    simp [h, this]

/-- The other three fields after `init`. -/
theorem init_fields (L : SpeechLog) :
    (L.init).currentResults = [] ∧ (L.init).interimResults = [] ∧
    (L.init).indexFinished = -1 ∧ (L.init).maxCharacters = L.maxCharacters := by
  unfold SpeechLog.init
  repeat' constructor

/-- Every item the one-step extraction adds beyond the accumulator is
well-formed (first alternative present, non-empty string transcript). -/
theorem extractStep_items_good (ev : SpeechEvent) (ix fin : Int)
    (items : List SpeechResult) :
    ∀ x ∈ (extractStep ev ix fin items).2.1, x ∈ items ∨ GoodResult x := by
  intro x hx
  unfold extractStep at hx
  rcases h1 : jsIndex ev.results ix with _ | r <;> rw [h1] at hx
  · exact Or.inl hx
  · simp only at hx
    rcases h2 : r.top with _ | a <;> rw [h2] at hx <;> simp only at hx
    · exact Or.inl hx
    · rcases h3 : a.transcript with _ | _ | t <;> rw [h3] at hx <;> simp only at hx
      · exact Or.inl hx
      · exact Or.inl hx
      · by_cases h4 : t.length > 0
        · rw [if_pos h4] at hx
          simp only at hx
          rcases List.mem_append.1 hx with h | h
          · exact Or.inl h
          · rcases List.mem_singleton.1 h with rfl
            exact Or.inr ⟨a, t, h2, h3, h4⟩
        · rw [if_neg h4] at hx
          exact Or.inl hx

/-- Over the whole extraction loop, every collected item was either already
in the accumulator or is well-formed. -/
theorem extractLoop_items_good (ev : SpeechEvent) :
    ∀ (k : Nat) (ix fin : Int) (items : List SpeechResult),
      ∀ x ∈ (extractLoop ev k ix fin items).2.1, x ∈ items ∨ GoodResult x := by
  intro k
  induction k with
  | zero => intro ix fin items x hx; exact Or.inl hx
  | succ k ih =>
    intro ix fin items x hx
    have hs := extractStep_items_good ev ix fin items
    unfold extractLoop at hx
    rcases h : extractStep ev ix fin items with ⟨fin2, items2, err⟩
    rw [h] at hx hs
    cases err with
    | true => exact hs x hx
    | false =>
      simp only at hx
      rcases ih (ix + 1) fin2 items2 x hx with h2 | h2
      · exact hs x h2
      · exact Or.inr h2

/-- Everything `_extractUpdate` collects is well-formed: no `null` and no
empty-string transcript is ever returned as an updated item. -/
theorem extractUpdate_items_good (L : SpeechLog) (ev : SpeechEvent) :
    ∀ x ∈ (L.extractUpdate ev).2.1, GoodResult x := by
  intro x hx
  rcases extractLoop_items_good ev _ _ _ _ x hx with h | h
  · simp at h
  · exact h

/-- `_pushUpdate` only ever keeps the window, appends the new entry, or
pops the last entry and appends; likewise for the interim list. -/
theorem pushUpdate_shape (L : SpeechLog) (r : SpeechResult) :
    ((L.pushUpdate r).1.currentResults = L.currentResults ∨
     (L.pushUpdate r).1.currentResults = L.currentResults ++ [r] ∨
     (L.pushUpdate r).1.currentResults = L.currentResults.dropLast ++ [r]) ∧
    ((L.pushUpdate r).1.interimResults = L.interimResults ∨
     (L.pushUpdate r).1.interimResults = L.interimResults ++ [r]) := by
  unfold SpeechLog.pushUpdate
  repeat' split
  all_goals simp

/-- `_pushUpdate` with a well-formed item keeps every window and interim
entry well-formed. -/
theorem pushUpdate_good (L : SpeechLog) (r : SpeechResult)
    (hr : GoodResult r)
    (hc : ∀ x ∈ L.currentResults, GoodResult x)
    (hi : ∀ x ∈ L.interimResults, GoodResult x) :
    (∀ x ∈ (L.pushUpdate r).1.currentResults, GoodResult x) ∧
    (∀ x ∈ (L.pushUpdate r).1.interimResults, GoodResult x) := by
  have hs := pushUpdate_shape L r
  constructor
  · intro x hx
    rcases hs.1 with h | h | h <;> rw [h] at hx
    · exact hc x hx
    · rcases List.mem_append.1 hx with h2 | h2
      · exact hc x h2
      · rcases List.mem_singleton.1 h2 with rfl; exact hr
    · rcases List.mem_append.1 hx with h2 | h2
      · exact hc x (List.dropLast_subset _ h2)
      · rcases List.mem_singleton.1 h2 with rfl; exact hr
  · intro x hx
    rcases hs.2 with h | h <;> rw [h] at hx
    · exact hi x hx
    · rcases List.mem_append.1 hx with h2 | h2
      · exact hi x h2
      · rcases List.mem_singleton.1 h2 with rfl; exact hr

/-- The push loop with well-formed items keeps every window and interim
entry well-formed. -/
theorem pushAll_good (rs : List SpeechResult) : ∀ (L : SpeechLog),
    (∀ x ∈ rs, GoodResult x) →
    (∀ x ∈ L.currentResults, GoodResult x) →
    (∀ x ∈ L.interimResults, GoodResult x) →
    (∀ x ∈ (L.pushAll rs).1.currentResults, GoodResult x) ∧
    (∀ x ∈ (L.pushAll rs).1.interimResults, GoodResult x) := by
  induction rs with
  | nil => intro L _ hc hi; exact ⟨hc, hi⟩
  | cons r rest ih =>
    intro L hrs hc hi
    have hg := pushUpdate_good L r (hrs r (List.mem_cons_self r rest)) hc hi
    unfold SpeechLog.pushAll
    rcases h : L.pushUpdate r with ⟨L2, err⟩
    rw [h] at hg
    cases err with
    | true => simpa using hg
    | false =>
      simp only
      exact ih L2 (fun x hx => hrs x (List.mem_cons_of_mem r hx)) hg.1 hg.2

/-- `update` keeps every stored entry well-formed. -/
theorem update_good (L : SpeechLog) (ev : SpeechEvent) (h : GoodLog L) :
    GoodLog (L.update ev).1 := by
  obtain ⟨hw, hc, hi⟩ := h
  have hwz := (update_wholeLog L ev).1
  have hitems := extractUpdate_items_good L ev
  unfold SpeechLog.update
  rcases hx : L.extractUpdate ev with ⟨fin, items, err⟩
  rw [hx] at hitems
  cases err with
  | true => exact ⟨hw, hc, hi⟩
  | false =>
    by_cases hlen : items.length < 1
    · simp only [hlen, if_true]
      exact ⟨hw, hc, hi⟩
    · simp only [hlen, if_false]
      have hg := pushAll_good items
        ({ L with indexFinished := fin, interimResults := [] } : SpeechLog)
        hitems hc (by intro x hx2; simp at hx2)
      have hwfr := (pushAll_frame items
        ({ L with indexFinished := fin, interimResults := [] } : SpeechLog)).1
      rcases hq : SpeechLog.pushAll _ items with ⟨L2, perr⟩
      rw [hq] at hg hwfr
      cases perr with
      | true => exact ⟨by rw [hwfr]; simpa using hw, hg.1, hg.2⟩
      | false => exact ⟨by rw [hwfr]; simpa using hw, hg.1, hg.2⟩

/-- `init` keeps every stored entry well-formed. -/
theorem init_good (L : SpeechLog) (h : GoodLog L) : GoodLog L.init := by
  obtain ⟨hw, hc, hi⟩ := h
  refine ⟨?_, ?_, ?_⟩
  · intro x hx
    rw [init_wholeLog L] at hx
    rcases List.mem_append.1 hx with h2 | h2
    · exact hw x h2
    · exact hc x h2
  · intro x hx
    rw [(init_fields L).1] at hx
    simp at hx
  · intro x hx
    rw [(init_fields L).2.1] at hx
    simp at hx

/-- Any operation sequence from a well-formed state ends well-formed. -/
theorem runOps_good (ops : List LedgerOp) : ∀ (L : SpeechLog),
    GoodLog L → GoodLog (runOps ops L) := by
  induction ops with
  | nil => intro L h; exact h
  | cons op rest ih =>
    intro L h
    cases op with
    | update ev => exact ih _ (update_good L ev h)
    | init => exact ih _ (init_good L h)

/-- The fresh ledger is trivially well-formed. -/
theorem new_good : GoodLog SpeechLog.new := by
  refine ⟨?_, ?_, ?_⟩ <;> intro x hx <;> simp [SpeechLog.new] at hx

/-- Monotonicity of `indexFinished` over a whole update sequence. -/
theorem runUpdates_fin_le (evs : List SpeechEvent) : ∀ (L : SpeechLog),
    L.indexFinished ≤ (runUpdates evs L).indexFinished := by
  induction evs with
  | nil => intro L; exact le_refl _
  | cons ev rest ih =>
    intro L
    exact le_trans (update_fin_le L ev) (ih (L.update ev).1)

/-- When `update` reports no change, nothing but `indexFinished` was
touched. -/
theorem update_ok_false_frame (L : SpeechLog) (ev : SpeechEvent)
    (h : (L.update ev).2 = Except.ok false) :
    (L.update ev).1.currentResults = L.currentResults ∧
    (L.update ev).1.interimResults = L.interimResults ∧
    (L.update ev).1.wholeLog = L.wholeLog := by
  unfold SpeechLog.update at h ⊢
  rcases hx : L.extractUpdate ev with ⟨fin, items, err⟩
  rw [hx] at h
  cases err with
  | true => simp at h
  | false =>
    by_cases hlen : items.length < 1
    · simp [hlen]
    · exfalso
      simp only [hlen, if_false] at h
      rcases hq : SpeechLog.pushAll
          ({ L with indexFinished := fin, interimResults := [] } : SpeechLog)
          items with ⟨L2, perr⟩
      rw [hq] at h
      cases perr with
      | true => simp at h
      | false => simp at h

/-- A defined `jsIndex` access returns a member of the list. -/
theorem jsIndex_mem (l : List α) (ix : Int) (r : α)
    (h : jsIndex l ix = some r) : r ∈ l := by
  unfold jsIndex at h
  split at h
  · cases h; exact List.get_mem l _ _
  · cases h

/-- A list of results with alternatives gives every head access. -/
theorem hasTops_top (rs : List SpeechResult) (h : HasTops rs) (r : SpeechResult)
    (hr : r ∈ rs) : ∃ a, r.top = some a := by
  have := h r hr
  cases hl : r.alternatives with
  | nil => exact absurd hl this
  | cons x xs => exact ⟨x, by simp [SpeechResult.top, hl]⟩

/-- One extraction step cannot throw when the index is in range and every
result has a first alternative. -/
theorem extractStep_ok (ev : SpeechEvent) (ix fin : Int)
    (items : List SpeechResult) (h0 : 0 ≤ ix)
    (hlt : ix.toNat < ev.results.length) (htops : HasTops ev.results) :
    (extractStep ev ix fin items).2.2 = false := by
  have hje : ∃ r, jsIndex ev.results ix = some r := by
    unfold jsIndex
    rw [dif_pos ⟨h0, hlt⟩]
    exact ⟨_, rfl⟩
  obtain ⟨r, hj⟩ := hje
  obtain ⟨a, ha⟩ := hasTops_top ev.results htops r (jsIndex_mem _ _ _ hj)
  unfold extractStep
  rw [hj]
  dsimp only
  rw [ha]
  dsimp only
  rcases ht : a.transcript with _ | _ | t
  · rfl
  · rfl
  · dsimp only
    split <;> rfl

/-- The extraction loop cannot throw when it stays in range and every
result has a first alternative. -/
theorem extractLoop_ok (ev : SpeechEvent) :
    ∀ (k : Nat) (ix fin : Int) (items : List SpeechResult), 0 ≤ ix →
      ix.toNat + k ≤ ev.results.length → HasTops ev.results →
      (extractLoop ev k ix fin items).2.2 = false := by
  intro k
  induction k with
  | zero => intro ix fin items _ _ _; rfl
  | succ k ih =>
    intro ix fin items h0 hk htops
    have hlt : ix.toNat < ev.results.length := by omega
    have hs := extractStep_ok ev ix fin items h0 hlt htops
    unfold extractLoop
    rcases h : extractStep ev ix fin items with ⟨fin2, items2, err⟩
    rw [h] at hs
    cases err with
    | true => simp at hs
    | false =>
      simp only
      apply ih (ix + 1) fin2 items2 (by omega) (by omega) htops

/-- `_extractUpdate` cannot throw when `resultIndex` is non-negative and
every result has a first alternative. -/
theorem extractUpdate_ok (L : SpeechLog) (ev : SpeechEvent)
    (hix : 0 ≤ ev.resultIndex) (htops : HasTops ev.results) :
    (L.extractUpdate ev).2.2 = false := by
  unfold SpeechLog.extractUpdate
  dsimp only
  have hb0 : 0 ≤ max L.indexFinished ev.resultIndex :=
    le_trans hix (le_max_right _ _)
  by_cases hc : max L.indexFinished ev.resultIndex ≤ (ev.results.length : Int)
  · exact extractLoop_ok ev _ _ _ _ hb0 (by omega) htops
  · have hz : ((ev.results.length : Int) - max L.indexFinished ev.resultIndex).toNat = 0 := by
      omega
    rw [hz]
    rfl

/-- A well-formed result has a first alternative. -/
theorem goodResult_ne_nil (r : SpeechResult) (h : GoodResult r) :
    r.alternatives ≠ [] := by
  obtain ⟨a, t, ha, _, _⟩ := h
  intro hnil
  rw [SpeechResult.top, hnil] at ha
  cases ha

/-- A last-item lookup returns a member of the list. -/
theorem getLastItem_mem (l : List α) (a : α)
    (h : SpeechLog.getLastItem l = some a) : a ∈ l := by
  unfold SpeechLog.getLastItem at h
  split at h
  · cases h
  · obtain ⟨hne, heq⟩ := List.mem_getLast?_eq_getLast (show a ∈ l.getLast? from h)
    rw [heq]
    exact List.getLast_mem hne

/-- `_pushUpdate` cannot throw on a well-formed item when the window
entries all have first alternatives. -/
theorem pushUpdate_ok (L : SpeechLog) (r : SpeechResult) (hr : GoodResult r)
    (hc : HasTops L.currentResults) : (L.pushUpdate r).2 = false := by
  obtain ⟨a, t, ha, ht, _⟩ := hr
  unfold SpeechLog.pushUpdate
  by_cases hf : r.isFinal
  · rw [if_pos hf]
    rcases hl : SpeechLog.getLastItem L.currentResults with _ | last
    · rfl
    · obtain ⟨la, hla⟩ := hasTops_top _ hc last (getLastItem_mem _ _ hl)
      dsimp only
      rw [ha]
      dsimp only
      rw [ht]
      dsimp only
      rw [hla]
      dsimp only
      split <;> rfl
  · rw [if_neg hf]

/-- `_pushUpdate` with an item that has a first alternative keeps the
window and interim entries equipped with first alternatives. -/
theorem pushUpdate_hasTops (L : SpeechLog) (r : SpeechResult)
    (hrt : r.alternatives ≠ [])
    (hc : HasTops L.currentResults) (hi : HasTops L.interimResults) :
    HasTops (L.pushUpdate r).1.currentResults ∧
    HasTops (L.pushUpdate r).1.interimResults := by
  have hs := pushUpdate_shape L r
  constructor
  · intro x hx
    rcases hs.1 with h | h | h <;> rw [h] at hx
    · exact hc x hx
    · rcases List.mem_append.1 hx with h2 | h2
      · exact hc x h2
      · rcases List.mem_singleton.1 h2 with rfl; exact hrt
    · rcases List.mem_append.1 hx with h2 | h2
      · exact hc x (List.dropLast_subset _ h2)
      · rcases List.mem_singleton.1 h2 with rfl; exact hrt
  · intro x hx
    rcases hs.2 with h | h <;> rw [h] at hx
    · exact hi x hx
    · rcases List.mem_append.1 hx with h2 | h2
      · exact hi x h2
      · rcases List.mem_singleton.1 h2 with rfl; exact hrt

/-- The push loop over well-formed items cannot throw when the window
entries all have first alternatives. -/
theorem pushAll_ok (rs : List SpeechResult) : ∀ (L : SpeechLog),
    (∀ x ∈ rs, GoodResult x) → HasTops L.currentResults →
    HasTops L.interimResults → (L.pushAll rs).2 = false := by
  induction rs with
  | nil => intro L _ _ _; rfl
  | cons r rest ih =>
    intro L hrs hc hi
    have hgr := hrs r (List.mem_cons_self r rest)
    have h1 := pushUpdate_ok L r hgr hc
    have h2 := pushUpdate_hasTops L r (goodResult_ne_nil r hgr) hc hi
    unfold SpeechLog.pushAll
    rcases hq : L.pushUpdate r with ⟨L2, perr⟩
    rw [hq] at h1 h2
    simp only at h1
    cases perr with
    | true => simp at h1
    | false =>
      exact ih L2 (fun x hx => hrs x (List.mem_cons_of_mem r hx)) h2.1 h2.2

/-- `update` returns normally (no TypeError) whenever the event's
`resultIndex` is non-negative, each event result has a first alternative,
and so does each stored window entry. -/
theorem update_ok (L : SpeechLog) (ev : SpeechEvent)
    (hL : HasTops L.currentResults) (hix : 0 ≤ ev.resultIndex)
    (htops : HasTops ev.results) : ∃ b, (L.update ev).2 = Except.ok b := by
  have he := extractUpdate_ok L ev hix htops
  have hgood := extractUpdate_items_good L ev
  unfold SpeechLog.update
  rcases hx : L.extractUpdate ev with ⟨fin, items, err⟩
  rw [hx] at he hgood
  simp only at he
  cases err with
  | true => simp at he
  | false =>
    by_cases hlen : items.length < 1
    · exact ⟨false, by simp [hlen]⟩
    · simp only [hlen, if_false]
      have hp := pushAll_ok items
        ({ L with indexFinished := fin, interimResults := [] } : SpeechLog)
        hgood hL (by intro x hx2; simp at hx2)
      rcases hq : SpeechLog.pushAll
          ({ L with indexFinished := fin, interimResults := [] } : SpeechLog)
          items with ⟨L2, perr⟩
      rw [hq] at hp
      simp only at hp
      subst hp
      exact ⟨true, rfl⟩

/-- The head transcript seen through `topTranscript` agrees with the head
alternative. -/
theorem topTranscript_eq (r : SpeechResult) (a : SpeechAlternative)
    (ha : r.top = some a) : r.topTranscript = a.transcript := by
  unfold SpeechResult.top at ha
  unfold SpeechResult.topTranscript
  rw [ha]

/-- The `getWholeLog` loop, on entries with first alternatives, appends one
normalized line per entry. -/
theorem wholeLogGo_eq (rs : List SpeechResult) : ∀ (acc : List String),
    HasTops rs →
    wholeLogGo rs acc = Except.ok (acc ++ rs.map
      (fun r => SpeechLog.addPunctuationIfNotExists r.topTranscript ++ "\n")) := by
  induction rs with
  | nil => intro acc _; simp [wholeLogGo]
  | cons r rest ih =>
    intro acc h
    obtain ⟨a, ha⟩ := hasTops_top _ h r (List.mem_cons_self r rest)
    unfold wholeLogGo
    rw [ha]
    dsimp only
    rw [ih _ (fun x hx => h x (List.mem_cons_of_mem r hx))]
    simp [topTranscript_eq r a ha, List.append_assoc]

/-- The final-window loop of `getCurrentSpeech` returns normally on entries
with first alternatives. -/
theorem currentSpeechFinalGo_ok (rs : List SpeechResult) : ∀ (acc : String),
    HasTops rs → ∃ s, currentSpeechFinalGo rs acc = Except.ok s := by
  induction rs with
  | nil => intro acc _; exact ⟨acc, rfl⟩
  | cons r rest ih =>
    intro acc h
    obtain ⟨a, ha⟩ := hasTops_top _ h r (List.mem_cons_self r rest)
    unfold currentSpeechFinalGo
    rw [ha]
    exact ih _ (fun x hx => h x (List.mem_cons_of_mem r hx))

/-- The interim loop of `getCurrentSpeech` returns normally on entries with
first alternatives. -/
theorem currentSpeechInterimGo_ok (rs : List SpeechResult) : ∀ (acc : String),
    HasTops rs → ∃ s, currentSpeechInterimGo rs acc = Except.ok s := by
  induction rs with
  | nil => intro acc _; exact ⟨acc, rfl⟩
  | cons r rest ih =>
    intro acc h
    obtain ⟨a, ha⟩ := hasTops_top _ h r (List.mem_cons_self r rest)
    unfold currentSpeechInterimGo
    rw [ha]
    exact ih _ (fun x hx => h x (List.mem_cons_of_mem r hx))

/-- `getCurrentSpeech` returns normally on states whose entries have first
alternatives. -/
theorem getCurrentSpeech_ok (L : SpeechLog) (hc : HasTops L.currentResults)
    (hi : HasTops L.interimResults) :
    ∃ s, (L.getCurrentSpeech).2 = Except.ok s := by
  unfold SpeechLog.getCurrentSpeech
  obtain ⟨s1, h1⟩ := currentSpeechFinalGo_ok L.currentResults "" hc
  rw [h1]
  exact currentSpeechInterimGo_ok L.interimResults s1 hi

/-- `getWholeLog` produces exactly one normalized line per entry of
`wholeLog`, `currentResults`, `interimResults`, in that order. -/
theorem getWholeLog_eq (L : SpeechLog) (hw : HasTops L.wholeLog)
    (hc : HasTops L.currentResults) (hi : HasTops L.interimResults) :
    (L.getWholeLog).2 = Except.ok
      ((L.wholeLog ++ L.currentResults ++ L.interimResults).map
        (fun r => SpeechLog.addPunctuationIfNotExists r.topTranscript ++ "\n")) := by
  unfold SpeechLog.getWholeLog
  rw [wholeLogGo_eq L.wholeLog [] hw]
  dsimp only
  rw [wholeLogGo_eq L.currentResults _ hc]
  dsimp only
  rw [wholeLogGo_eq L.interimResults _ hi]
  simp

/-- `start()` on a disabled adapter: returns `false`, touches nothing, and
does not start the engine. -/
theorem start_disabled (S : SpeechRecognizer) (h : S.available = false) :
    S.start = (S, false, 0) := by
  unfold SpeechRecognizer.start
  rw [if_pos (Or.inl (by simp [h]))]

/-- No handler ever changes the `recognizer` reference. -/
theorem handle_recognizer (S : SpeechRecognizer) (e : AdapterEvent) :
    (S.handle e).1.recognizer = S.recognizer := by
  unfold SpeechRecognizer.handle SpeechRecognizer.start
  repeat' split
  all_goals try rfl
  all_goals dsimp only
  all_goals split_ifs <;> rfl

/-- Once `available` is `false`, a handler invocation keeps it `false` and
never starts the engine. -/
theorem handle_disabled (S : SpeechRecognizer) (e : AdapterEvent)
    (h : S.available = false) :
    (S.handle e).1.available = false ∧ (S.handle e).2.engineStarts = 0 := by
  unfold SpeechRecognizer.handle
  by_cases hr : S.recognizer ≠ RecognizerRef.engine
  · rw [if_pos hr]
    exact ⟨h, rfl⟩
  · rw [if_neg hr]
    cases e
    · exact ⟨h, rfl⟩
    · exact ⟨h, rfl⟩
    · exact ⟨h, rfl⟩
    · exact ⟨h, rfl⟩
    · exact ⟨h, rfl⟩
    · exact ⟨h, rfl⟩
    · exact ⟨h, rfl⟩
    · dsimp only
      rw [if_neg (by simp [h])]
      exact ⟨h, rfl⟩
    · dsimp only
      split
      · exact ⟨rfl, rfl⟩
      · exact ⟨h, rfl⟩
    · exact ⟨h, rfl⟩
    · exact ⟨h, rfl⟩

/-- Once `available` is `false`, an entire event trace keeps it `false` and
never starts the engine. -/
theorem run_disabled (evs : List AdapterEvent) : ∀ (S : SpeechRecognizer),
    S.available = false →
    (S.run evs).1.available = false ∧ (S.run evs).2.engineStarts = 0 := by
  induction evs with
  | nil => intro S h; exact ⟨h, rfl⟩
  | cons e rest ih =>
    intro S h
    have h1 := handle_disabled S e h
    have h2 := ih (S.handle e).1 h1.1
    exact ⟨h2.1, by show (S.handle e).2.engineStarts + _ = 0; rw [h1.2, h2.2]⟩

/-- `init()` when the platform has no recognizer implementation: recognizer
becomes `null`, `available` becomes `false`, the call returns `false`, and
`onCritical` is not invoked. -/
theorem init_noImpl (S : SpeechRecognizer) (h : S.recognizer = RecognizerRef.undef) :
    (S.init false).1.available = false ∧
    (S.init false).1.recognizer = RecognizerRef.nullRef ∧
    (S.init false).2.1 = false ∧ (S.init false).2.2 = 0 := by
  unfold SpeechRecognizer.init
  rw [if_neg (by simp [h])]
  exact ⟨rfl, rfl, rfl, rfl⟩

/-- The `onerror` handler on a qualifying early error: disables the adapter
and fires `onCritical` exactly once. -/
theorem handle_error_fatal (S : SpeechRecognizer) (code : String)
    (hrec : S.recognizer = RecognizerRef.engine)
    (hsa : S.isSpeechAvailable = false)
    (h1 : code ≠ "no-speech") (h2 : code ≠ "aborted") :
    S.handle (.onerror code) = ({ S with available := false }, ⟨1, 0⟩) := by
  unfold SpeechRecognizer.handle
  rw [if_neg (by simp [hrec])]
  dsimp only
  rw [if_pos ⟨by simp [hsa], h1, h2⟩]

/-- C1: the claim says `_trimCurrentResults` is invoked after every final
append and keeps the window total within `maxCharacters`; in the code the
method exists but is never called, so after the spec's own scenario
(budget 10, final entries `abcde`, `fghij`, `klmno`) the window still
holds all three entries with total length 15 > 10, while invoking the
trimming method would have produced exactly the window the claim expects. -/
theorem trim_dead_code_window_exceeds_budget :
    ledgerAfterThree.currentResults =
      [finalRes "abcde", finalRes "fghij", finalRes "klmno"] ∧
    (ledgerAfterThree.currentResults.map transcriptLength).sum = 15 ∧
    ¬ (ledgerAfterThree.currentResults.map transcriptLength).sum ≤
        ledgerAfterThree.maxCharacters ∧
    (ledgerAfterThree.trimCurrentResults).1.currentResults =
      [finalRes "fghij", finalRes "klmno"] ∧
    ((ledgerAfterThree.trimCurrentResults).1.currentResults.map
        transcriptLength).sum ≤ ledgerAfterThree.maxCharacters := by
  refine ⟨rfl, rfl, by decide, rfl, by decide⟩

/-- C2 counterexample: when no recognizer implementation is available,
`init()` transitions to the disabled state and later `start()` calls
return `false`, but `onCritical` is never invoked (zero invocations, not
the exactly-one the claim states). -/
theorem no_impl_init_emits_no_critical :
    ((SpeechRecognizer.mk0 SpeechLog.new).init false).2.2 = 0 ∧
    ((SpeechRecognizer.mk0 SpeechLog.new).init false).1.available = false ∧
    (((SpeechRecognizer.mk0 SpeechLog.new).init false).1.start).2.1 = false ∧
    ((SpeechRecognizer.mk0 SpeechLog.new).init false).2.2 ≠ 1 := by
  refine ⟨rfl, rfl, rfl, by decide⟩

/-- C2 amended: an error before any `onspeechstart` whose code is neither
`no-speech` nor `aborted` disables the adapter with exactly one
`onCritical` invocation, and afterwards no event trace re-enables it,
ever starts the engine again, or makes `start()` return `true`; the
no-implementation `init()` path likewise disables permanently with
`start()` returning `false`, but emits no `onCritical` at all. -/
theorem fatal_paths_disable_permanently (S : SpeechRecognizer) (code : String)
    (evs : List AdapterEvent) (hrec : S.recognizer = RecognizerRef.engine)
    (hsa : S.isSpeechAvailable = false)
    (h1 : code ≠ "no-speech") (h2 : code ≠ "aborted") :
    ((S.handle (.onerror code)).2.criticals = 1 ∧
     (S.handle (.onerror code)).1.available = false ∧
     ((S.handle (.onerror code)).1.run evs).1.available = false ∧
     ((S.handle (.onerror code)).1.run evs).2.engineStarts = 0 ∧
     ((((S.handle (.onerror code)).1.run evs).1).start).2.1 = false) ∧
    (∀ T : SpeechRecognizer, T.recognizer = RecognizerRef.undef →
       (T.init false).2.2 = 0 ∧ (T.init false).1.available = false ∧
       (((T.init false).1).start).2.1 = false ∧
       (((T.init false).1).run evs).1.available = false ∧
       (((T.init false).1).run evs).2.engineStarts = 0) := by
  constructor
  · have hf := handle_error_fatal S code hrec hsa h1 h2
    rw [hf]
    have hrun := run_disabled evs ({ S with available := false }) rfl
    refine ⟨rfl, rfl, hrun.1, hrun.2, ?_⟩
    rw [start_disabled _ hrun.1]
  · intro T hT
    have hi := init_noImpl T hT
    have hrun := run_disabled evs (T.init false).1 hi.1
    refine ⟨hi.2.2.2, hi.1, ?_, hrun.1, hrun.2⟩
    rw [start_disabled _ hi.1]

/-- C2 witness: the spec's fatal scenario — engine initialized, a
`network` error before any `speechstart`, then a session-end event —
yields exactly one `onCritical`, a permanently disabled adapter, no
engine restart, and `start()` returning `false`. -/
theorem fatal_paths_disable_permanently_witness :
    (engineAdapter.handle (AdapterEvent.onerror "network")).2.criticals = 1 ∧
    ((engineAdapter.handle
        (AdapterEvent.onerror "network")).1.run [AdapterEvent.onend]).1.available = false ∧
    ((engineAdapter.handle
        (AdapterEvent.onerror "network")).1.run [AdapterEvent.onend]).2.engineStarts = 0 ∧
    (((engineAdapter.handle
        (AdapterEvent.onerror "network")).1.run [AdapterEvent.onend]).1.start).2.1 = false := by
  have h := fatal_paths_disable_permanently engineAdapter "network"
    [AdapterEvent.onend] rfl rfl (by decide) (by decide)
  exact ⟨h.1.1, h.1.2.2.1, h.1.2.2.2.1, h.1.2.2.2.2⟩

/-- C3 counterexample: an event whose only result is final with an empty
transcript makes `update` return `false` (nothing collected), yet
`highestFinalizedIndex` changes from `-1` to `0`, so the claim that the
entire state is unchanged is false. -/
theorem update_false_changes_indexFinished :
    (SpeechLog.new.update emptyFinalEvent).2 = Except.ok false ∧
    (SpeechLog.new.update emptyFinalEvent).1.indexFinished ≠
      SpeechLog.new.indexFinished := by
  refine ⟨rfl, by decide⟩

/-- C3 amended: whenever `update` collects nothing and returns `false`, it
leaves `finalizedHistory`, `currentWindow` and `pendingInterim` unchanged;
`highestFinalizedIndex` however may still rise (final results are tracked
during the scan even when their transcripts are empty), and it never
falls. -/
theorem update_false_frame (L : SpeechLog) (ev : SpeechEvent)
    (h : (L.update ev).2 = Except.ok false) :
    (L.update ev).1.wholeLog = L.wholeLog ∧
    (L.update ev).1.currentResults = L.currentResults ∧
    (L.update ev).1.interimResults = L.interimResults ∧
    L.indexFinished ≤ (L.update ev).1.indexFinished := by
  have hf := update_ok_false_frame L ev h
  exact ⟨hf.2.2, hf.1, hf.2.1, update_fin_le L ev⟩

/-- C3 witness: the frame property at a concrete no-change call (an event
carrying no results). -/
theorem update_false_frame_witness :
    (SpeechLog.new.update emptyEvent).1.wholeLog = SpeechLog.new.wholeLog ∧
    (SpeechLog.new.update emptyEvent).1.currentResults =
      SpeechLog.new.currentResults ∧
    (SpeechLog.new.update emptyEvent).1.interimResults =
      SpeechLog.new.interimResults ∧
    SpeechLog.new.indexFinished ≤
      (SpeechLog.new.update emptyEvent).1.indexFinished :=
  update_false_frame SpeechLog.new emptyEvent rfl

/-- C4: `init()` appends the whole current window, in order, to the end of
the finalized history, clears the window and the pending interim results,
resets the finalized index to `-1`, and on an empty window leaves the
history unchanged. -/
theorem init_folds_window_and_resets (L : SpeechLog) :
    L.init.wholeLog = L.wholeLog ++ L.currentResults ∧
    L.init.currentResults = [] ∧
    L.init.interimResults = [] ∧
    L.init.indexFinished = -1 ∧
    (L.currentResults = [] → L.init.wholeLog = L.wholeLog) := by
  have hf := init_fields L
  refine ⟨init_wholeLog L, hf.1, hf.2.1, hf.2.2.1, ?_⟩
  intro h
  rw [init_wholeLog L, h]
  simp

/-- C4 witness: `init()` on the empty fresh ledger leaves the history
unchanged and resets the index. -/
theorem init_folds_window_and_resets_witness :
    SpeechLog.new.init.wholeLog = SpeechLog.new.wholeLog ∧
    SpeechLog.new.init.indexFinished = -1 :=
  ⟨(init_folds_window_and_resets SpeechLog.new).2.2.2.2 rfl,
   (init_folds_window_and_resets SpeechLog.new).2.2.2.1⟩

/-- C5: over any sequence of `update()` calls with no intervening
`init()`, `highestFinalizedIndex` never decreases. -/
theorem indexFinished_monotone (evs : List SpeechEvent) (L : SpeechLog) :
    L.indexFinished ≤ (runUpdates evs L).indexFinished :=
  runUpdates_fin_le evs L

/-- C6: applying a final result whose transcript extends the last window
entry's transcript replaces that entry (pop-then-push): the window length
is unchanged and its last transcript becomes the new one; without the
extension relation (or on an empty window) the result is appended as a
new entry. -/
theorem final_dedup_replaces_or_appends (L : SpeechLog) (r : SpeechResult)
    (a : SpeechAlternative) (t : String) (hf : r.isFinal = true)
    (ha : r.top = some a) (ht : a.transcript = JsVal.str t) :
    (L.currentResults = [] → (L.pushUpdate r).1.currentResults = [r]) ∧
    (∀ last la lt, SpeechLog.getLastItem L.currentResults = some last →
      last.top = some la → la.transcript = JsVal.str lt →
      (jsStartsWith t lt = true →
        (L.pushUpdate r).1.currentResults = L.currentResults.dropLast ++ [r] ∧
        (L.pushUpdate r).1.currentResults.length = L.currentResults.length ∧
        (L.pushUpdate r).1.currentResults.getLast? = some r) ∧
      (jsStartsWith t lt = false →
        (L.pushUpdate r).1.currentResults = L.currentResults ++ [r] ∧
        (L.pushUpdate r).1.currentResults.getLast? = some r)) := by
  constructor
  · intro hnil
    unfold SpeechLog.pushUpdate
    rw [if_pos hf]
    have hgl : SpeechLog.getLastItem L.currentResults = (none : Option SpeechResult) := by
      unfold SpeechLog.getLastItem
      rw [hnil]
      rfl
    rw [hgl]
    dsimp only
    rw [hnil]
    rfl
  · intro last la lt hlast hla hlt
    have hne : L.currentResults ≠ [] := by
      intro hc
      unfold SpeechLog.getLastItem at hlast
      rw [hc] at hlast
      cases hlast
    unfold SpeechLog.pushUpdate
    rw [if_pos hf, hlast]
    dsimp only
    rw [ha]
    dsimp only
    rw [ht]
    dsimp only
    rw [hla]
    dsimp only
    rw [hlt]
    dsimp only [JsVal.jsToString]
    constructor
    · intro hsw
      rw [if_pos hsw]
      refine ⟨rfl, ?_, ?_⟩
      · dsimp only
        rw [List.length_append, List.length_dropLast]
        have hpos : 0 < L.currentResults.length := List.length_pos.2 hne
        simp
        omega
      · exact List.getLast?_concat _
    · intro hsw
      rw [if_neg (by simp [hsw])]
      exact ⟨rfl, List.getLast?_concat _⟩

/-- C6 witness: the spec's dedup scenario — window ending in `こんにち`,
incoming final `こんにちは` — replaces rather than appends: the window
length stays 1 and the last entry becomes the new result. -/
theorem final_dedup_replaces_or_appends_witness :
    (dedupLedger.pushUpdate dedupResult).1.currentResults =
      dedupLedger.currentResults.dropLast ++ [dedupResult] ∧
    (dedupLedger.pushUpdate dedupResult).1.currentResults.length =
      dedupLedger.currentResults.length ∧
    (dedupLedger.pushUpdate dedupResult).1.currentResults.getLast? =
      some dedupResult := by
  have h := (final_dedup_replaces_or_appends dedupLedger dedupResult
      ⟨JsVal.str "こんにちは"⟩ "こんにちは" rfl rfl rfl).2
      (finalRes "こんにち") ⟨JsVal.str "こんにち"⟩ "こんにち" rfl rfl rfl
  exact (h.1 (by decide))

/-- C7: the extraction step never collects a result whose top transcript
is null or empty, and from a fresh ledger no entry of the current window
or the finalized history ever carries anything but a non-empty string
transcript, across any sequence of `update` and `init` calls. -/
theorem empty_results_never_stored :
    (∀ (L : SpeechLog) (ev : SpeechEvent),
      ∀ r ∈ (L.extractUpdate ev).2.1, GoodResult r) ∧
    (∀ ops : List LedgerOp,
      (∀ r ∈ (runOps ops SpeechLog.new).currentResults, GoodResult r) ∧
      (∀ r ∈ (runOps ops SpeechLog.new).wholeLog, GoodResult r)) := by
  refine ⟨extractUpdate_items_good, ?_⟩
  intro ops
  have h := runOps_good ops SpeechLog.new new_good
  exact ⟨h.2.1, h.1⟩

/-- C7 witness: the filter at work on a concrete extraction — the one
collected item of `helloEvent` on the fresh ledger is well-formed. -/
theorem empty_results_never_stored_witness : GoodResult (finalRes "hello") :=
  empty_results_never_stored.1 SpeechLog.new helloEvent (finalRes "hello")
    (by decide)

/-- C8: `getWholeLog` returns one line per entry of the finalized history,
then the current window, then the pending interim results, in that order,
each line being the punctuation-normalized transcript plus a line break. -/
theorem getWholeLog_lines_in_order (L : SpeechLog)
    (h : HasTops (L.wholeLog ++ L.currentResults ++ L.interimResults)) :
    (L.getWholeLog).2 = Except.ok
      ((L.wholeLog ++ L.currentResults ++ L.interimResults).map
        (fun r => SpeechLog.addPunctuationIfNotExists r.topTranscript ++ "\n")) := by
  have hw : HasTops L.wholeLog := fun r hr => h r (by simp [hr])
  have hc : HasTops L.currentResults := fun r hr => h r (by simp [hr])
  have hi : HasTops L.interimResults := fun r hr => h r (by simp [hr])
  exact getWholeLog_eq L hw hc hi

/-- C8 witness: the spec's round-trip ledger (history `A`, window `B`,
interim `C`) exports exactly the three normalized lines in order. -/
theorem getWholeLog_lines_in_order_witness :
    (ledgerABC.getWholeLog).2 =
      Except.ok ["A。\n", "B。\n", "C。\n"] := by
  rw [getWholeLog_lines_in_order ledgerABC (by decide)]
  rfl

/-- C9 counterexample: `update` throws a TypeError (instead of returning
normally) on an event whose result lacks alternatives, because
`results[ix][0].transcript` dereferences `undefined`. -/
theorem update_throws_on_missing_alternative :
    (SpeechLog.new.update noAltEvent).2 = Except.error "TypeError" := rfl

/-- C9 amended: the ledger operations return normally — all guards being
defensive returns — for every event whose scanned results each carry a
first alternative and whose `resultIndex` is non-negative, on every state
whose stored entries carry first alternatives (as all reachable states
do); null, non-string and empty transcripts are filtered, not thrown
on. -/
theorem ledger_total_on_wellformed_inputs (L : SpeechLog) (ev : SpeechEvent)
    (hL : HasTops (L.wholeLog ++ L.currentResults ++ L.interimResults))
    (hix : 0 ≤ ev.resultIndex) (hev : HasTops ev.results) :
    (∃ b, (L.update ev).2 = Except.ok b) ∧
    (∃ s, (L.getCurrentSpeech).2 = Except.ok s) ∧
    (∃ xs, (L.getWholeLog).2 = Except.ok xs) := by
  have hw : HasTops L.wholeLog := fun r hr => hL r (by simp [hr])
  have hc : HasTops L.currentResults := fun r hr => hL r (by simp [hr])
  have hi : HasTops L.interimResults := fun r hr => hL r (by simp [hr])
  exact ⟨update_ok L ev hc hix hev, getCurrentSpeech_ok L hc hi,
    ⟨_, getWholeLog_eq L hw hc hi⟩⟩

/-- C9 witness: the no-throw property at a concrete well-formed call. -/
theorem ledger_total_on_wellformed_inputs_witness :
    (∃ b, (SpeechLog.new.update helloEvent).2 = Except.ok b) ∧
    (∃ s, (SpeechLog.new.getCurrentSpeech).2 = Except.ok s) ∧
    (∃ xs, (SpeechLog.new.getWholeLog).2 = Except.ok xs) :=
  ledger_total_on_wellformed_inputs SpeechLog.new helloEvent (by decide)
    (by decide) (by decide)

/-- C10: the finalized history is append-only — `update` never changes it
on any input, the two queries return the state unchanged, and `init`
precisely appends the current window to its end. -/
theorem history_append_only :
    (∀ (L : SpeechLog) (ev : SpeechEvent),
      (L.update ev).1.wholeLog = L.wholeLog) ∧
    (∀ L : SpeechLog, L.init.wholeLog = L.wholeLog ++ L.currentResults) ∧
    (∀ L : SpeechLog, (L.getCurrentSpeech).1 = L ∧ (L.getWholeLog).1 = L) :=
  ⟨fun L ev => (update_wholeLog L ev).1, init_wholeLog,
   fun _ => ⟨rfl, rfl⟩⟩
